import Mathlib

/-!
Shallow embedding of the RedWire network analyzer
(`src/downloadable/network_analyzer.py`), restricted to the data model and
the state-mutating operations of the `NetworkAnalyzerApp` class: packet
ingestion (`packet_callback` / `_process_packet` / `add_packet_to_tree`),
conversation selection (`select_conversation`), clearing (`clear_data`),
session start (`start_sniffing`, whose only data-model effect is
`self.graph.clear()`), the conversation-list sort
(`update_conversations_list`), CSV export (`download_csv`) and the
geolocation private-address short circuit (`_fetch_ip_info`).

Addresses are strings ordered lexicographically, as in Python.  Python's
insertion-ordered `dict`/`defaultdict` is modelled as an association list
to which new keys are appended; the `networkx.Graph` edge set is modelled
as a duplicate-free list of canonical (sorted) address pairs, since an
undirected edge is an unordered pair.
-/

/-- IP addresses are plain strings (`packet['IP'].src` etc.). -/
abbrev Addr := String

/-- The fields of a packet's IP layer that the program reads. -/
structure IPLayer where
  src : Addr
  dst : Addr
  proto : Nat
deriving DecidableEq, Repr

/-- A raw scapy packet as the program observes it: an optional IP layer
(`'IP' in packet`), the capture time `packet.time`, the total length
`len(packet)` and the one-line `packet.summary()`. -/
structure Packet where
  ip : Option IPLayer
  time : Nat
  pktLen : Nat
  summary : String
deriving DecidableEq, Repr

/-- Lexicographic code-point comparison of character lists — the order
Python uses to compare `str` values (and the order underlying Lean's
`String` order). -/
def charListLe : List Char → List Char → Bool
  | [], _ => true
  | _ :: _, [] => false
  | a :: as, b :: bs =>
    if a.toNat < b.toNat then true
    else if b.toNat < a.toNat then false
    else charListLe as bs

/-- Python's `<=` on address strings. -/
def strLe (a b : String) : Bool := charListLe a.data b.data

/-- Model of `tuple(sorted((src, dst)))` from `_process_packet` line 156: the
canonical flow key, the two addresses in lexicographic order. -/
def conversationKey (src dst : Addr) : Addr × Addr :=
  if strLe src dst then (src, dst) else (dst, src)

/-- Per-conversation state: `{"count": 0, "packets": []}` default of the
`conversations` defaultdict. -/
structure ConvState where
  count : Nat
  packets : List Packet
deriving DecidableEq, Repr

/-- The conversation store: insertion-ordered mapping FlowKey ↦ state. -/
abbrev ConvStore := List ((Addr × Addr) × ConvState)

/-- Model of `self.conversations[key]["count"] += 1; self.conversations[key]["packets"].append(packet)`:
on a missing key the defaultdict creates the entry, appended at the end of
the insertion order. -/
def recordPacket (k : Addr × Addr) (p : Packet) : ConvStore → ConvStore
  | [] => [(k, ⟨1, [p]⟩)]
  | (k', st) :: rest =>
    if k' = k then (k', ⟨st.count + 1, st.packets ++ [p]⟩) :: rest
    else (k', st) :: recordPacket k p rest

/-- Reading `self.conversations[k]` without writing (the defaultdict value
if absent is `{"count": 0, "packets": []}`). -/
def lookupConv (k : Addr × Addr) : ConvStore → ConvState
  | [] => ⟨0, []⟩
  | (k', st) :: rest => if k' = k then st else lookupConv k rest

/-- Accessing `self.conversations[k]` on a defaultdict also inserts the
default entry when the key is missing. -/
def ensureConv (k : Addr × Addr) (convs : ConvStore) : ConvStore :=
  if k ∈ convs.map Prod.fst then convs else convs ++ [(k, ⟨0, []⟩)]

/-- Model of `self.graph.add_edge(src, dst)` on the undirected `networkx.Graph`:
edges are unordered pairs, stored canonically; adding an existing edge is
a no-op. -/
def addEdge (src dst : Addr) (es : List (Addr × Addr)) : List (Addr × Addr) :=
  if conversationKey src dst ∈ es then es else es ++ [conversationKey src dst]

/-- Model of `proto_map.get(proto, str(proto))` with `proto_map = \x7b6: 'TCP', 17: 'UDP', 1: 'ICMP'\x7d`. -/
def protoName (proto : Nat) : String :=
  if proto = 6 then "TCP" else if proto = 17 then "UDP"
  else if proto = 1 then "ICMP" else toString proto

/-- One row of the `packet_tree` Treeview, the tuple built in
`add_packet_to_tree` line 182:
`(len(self.packets), packet_time, src, dst, proto_name, length, info)`.
The displayed time is kept as the raw `packet.time` (strftime formatting
is presentation only). -/
structure Row where
  no : Nat
  time : Nat
  src : Addr
  dst : Addr
  proto : String
  rowLen : Nat
  info : String
deriving DecidableEq, Repr

/-- The mutable state of `NetworkAnalyzerApp` that the ingestion pipeline
touches: the global packet log, the conversation store, the selection,
the communication graph and the displayed tree rows. -/
structure AppState where
  packets : List Packet
  conversations : ConvStore
  selected : Option (Addr × Addr)
  graph : List (Addr × Addr)
  tree : List Row
deriving DecidableEq, Repr

/-- The state set up in `__init__`. -/
def initState : AppState :=
  { packets := [], conversations := [], selected := none, graph := [], tree := [] }

/-- Model of `add_packet_to_tree(packet)` (lines 168-184): appends one row whose
first column is `len(self.packets)` at call time.  It is only ever invoked
on packets with an IP layer; a packet without one is left as a no-op here
(the Python would raise, but the branch is unreachable). -/
def addPacketToTree (s : AppState) (p : Packet) : AppState :=
  match p.ip with
  | none => s
  | some ip =>
    { s with tree := s.tree ++
        [⟨s.packets.length, p.time, ip.src, ip.dst, protoName ip.proto, p.pktLen, p.summary⟩] }

/-- Model of `_process_packet(packet)` (lines 147-166): reject non-IP packets,
record into the conversation store, append to the master list, then show
the packet iff no conversation is selected or it belongs to the selected
one. -/
def processPacket (s : AppState) (p : Packet) : AppState :=
  match p.ip with
  | none => s
  | some ip =>
    let key := conversationKey ip.src ip.dst
    let s1 := { s with conversations := recordPacket key p s.conversations }
    let s2 := { s1 with packets := s1.packets ++ [p] }
    if s2.selected = none ∨ s2.selected = some key then addPacketToTree s2 p else s2

/-- Model of `packet_callback(packet)` (lines 315-320): for IP packets, add the
graph edge then hand the packet to `_process_packet` (via `self.after`,
sequentialised here). -/
def packetCallback (s : AppState) (p : Packet) : AppState :=
  match p.ip with
  | none => s
  | some ip => processPacket { s with graph := addEdge ip.src ip.dst s.graph } p

/-- Model of `select_conversation(conv_key)` (lines 209-223): set the focus, clear
the tree and re-add every stored packet of that conversation.  Reading
`self.conversations[conv_key]` inserts the default entry when the key is
missing (defaultdict). -/
def selectConversation (s : AppState) (k : Addr × Addr) : AppState :=
  let convs := ensureConv k s.conversations
  let s1 := { s with selected := some k, conversations := convs, tree := [] }
  (lookupConv k convs).packets.foldl addPacketToTree s1

/-- Model of `clear_data()` (lines 259-273): resets packets, conversations,
selection, graph and the displayed tree. -/
def clearData (_s : AppState) : AppState := initState

/-- The data-model effect of `start_sniffing()` (lines 294-301):
`self.graph.clear()  # Clear graph for new session` — nothing else in the
data model changes. -/
def startSniffing (s : AppState) : AppState := { s with graph := [] }

/-- The user-drivable operations that mutate the data model. -/
inductive Op where
  | ingest (p : Packet)
  | select (k : Addr × Addr)
  | clear
  | startCapture
deriving DecidableEq, Repr

def applyOp (s : AppState) : Op → AppState
  | .ingest p => packetCallback s p
  | .select k => selectConversation s k
  | .clear => clearData s
  | .startCapture => startSniffing s

/-- Run a sequence of operations from a state. -/
def runOps (s : AppState) (ops : List Op) : AppState := ops.foldl applyOp s

/-- The FlowKeys present in the conversation store. -/
def convKeys (s : AppState) : List (Addr × Addr) := s.conversations.map Prod.fst

/-- Operations that touch both data structures consistently: packet
ingestion and the full clear. -/
def isDataOp : Op → Bool
  | .ingest _ => true
  | .clear => true
  | _ => false

/-- Model of one insertion step of Python's stable `sorted(...,
key=lambda item: item[1]['count'], reverse=True)` (line 192): an element
moves past exactly those elements whose count is strictly larger, so equal
counts keep their original relative order. -/
def insertByCountDesc (x : (Addr × Addr) × ConvState) :
    List ((Addr × Addr) × ConvState) → List ((Addr × Addr) × ConvState)
  | [] => [x]
  | y :: ys => if x.2.count < y.2.count then y :: insertByCountDesc x ys else x :: y :: ys

/-- Stable descending-by-count sort of the conversation list, the order
produced by `update_conversations_list`. -/
def sortedConvs (l : ConvStore) : ConvStore :=
  l.foldr insertByCountDesc []

/-- Model of `update_conversations_list` (lines 186-207): the conversation
buttons are rendered in this order. -/
def updateConversationsList (s : AppState) : ConvStore :=
  sortedConvs s.conversations

/-- Model of `download_csv` (lines 347-358): it serializes exactly the
rows currently in the tree, in display order. -/
def downloadCsvRows (s : AppState) : List Row := s.tree

/-- Model of Python `str.startswith(prefix)`. -/
def pyStartsWith (s pre : String) : Bool := pre.data.isPrefixOf s.data

/-- Model of the test in `_fetch_ip_info` line 372:
`ip.startswith(('10.', '192.168.', '172.16.', '127.0.0.1'))`. -/
def isPrivateByPrefix (ip : String) : Bool :=
  pyStartsWith ip "10." || pyStartsWith ip "192.168." ||
  pyStartsWith ip "172.16." || pyStartsWith ip "127.0.0.1"

/-- The observable outcome of `_fetch_ip_info` (lines 370-390): either the
local "Private/Local Address" result, or an HTTP request to ip-api.com. -/
inductive IpLookup where
  | privateLocal (ip : String)
  | networkCall (ip : String)
deriving DecidableEq, Repr

/-- Model of `_fetch_ip_info`: private-by-prefix addresses short-circuit
locally, every other address triggers a network call. -/
def fetchIpInfo (ip : String) : IpLookup :=
  if isPrivateByPrefix ip then .privateLocal ip else .networkCall ip

/-- Spec-side helper: split a character list at the dots. -/
def splitDots : List Char → List (List Char)
  | [] => [[]]
  | c :: cs =>
    if c = '.' then [] :: splitDots cs
    else
      match splitDots cs with
      | [] => [[c]]
      | w :: ws => (c :: w) :: ws

/-- Spec-side helper: the numeric value of a nonempty digit string. -/
def digitsVal (cs : List Char) : Option Nat :=
  if cs = [] ∨ ¬ cs.all Char.isDigit then none
  else some (cs.foldl (fun n c => n * 10 + (c.toNat - 48)) 0)

/-- Spec-side: the four octets of a dotted-quad IPv4 address string. -/
def ipOctets (ip : String) : Option (Nat × Nat × Nat × Nat) :=
  match (splitDots ip.data).map digitsVal with
  | [some a, some b, some c, some d] =>
    if a < 256 ∧ b < 256 ∧ c < 256 ∧ d < 256 then some (a, b, c, d) else none
  | _ => none

/-- Spec-side: membership in the private/reserved ranges named by the
specification — 10.0.0.0/8, 172.16.0.0/12, 192.168.0.0/16 and the
loopback range 127.0.0.0/8. -/
def specPrivateRange (ip : String) : Bool :=
  match ipOctets ip with
  | some (a, b, _, _) =>
    a == 10 || (a == 172 && decide (16 ≤ b) && decide (b ≤ 31)) ||
    (a == 192 && b == 168) || a == 127
  | none => false

/-- Sample packet a↔b, TCP. -/
def pktAB : Packet := ⟨some ⟨"a", "b", 6⟩, 0, 60, "ab"⟩

/-- Sample packet a↔c, UDP. -/
def pktAC : Packet := ⟨some ⟨"a", "c", 17⟩, 1, 40, "ac"⟩

/-- Sample packet c↔d, ICMP. -/
def pktCD : Packet := ⟨some ⟨"c", "d", 1⟩, 2, 50, "cd"⟩

/-- Sample packet without an IP layer. -/
def pktNoIP : Packet := ⟨none, 3, 10, "arp"⟩

/-! ## Basic lemmas about the string order and the state operations -/

theorem charListLe_total (as bs : List Char) :
    charListLe as bs = true ∨ charListLe bs as = true := by
  induction as generalizing bs with
  | nil => left; rfl
  | cons a as ih =>
    cases bs with
    | nil => right; rfl
    | cons b bs =>
      by_cases h1 : a.toNat < b.toNat
      · left; simp [charListLe, h1]
      · by_cases h2 : b.toNat < a.toNat
        · right; simp [charListLe, h1, h2]
        · rcases ih bs with h | h
          · left; simp [charListLe, h1, h2, h]
          · right; simp [charListLe, h1, h2, h]

theorem charListLe_antisymm (as : List Char) :
    ∀ bs, charListLe as bs = true → charListLe bs as = true → as = bs := by
  induction as with
  | nil =>
    intro bs h1 h2
    cases bs with
    | nil => rfl
    | cons b bs => simp [charListLe] at h2
  | cons a as ih =>
    intro bs h1 h2
    cases bs with
    | nil => simp [charListLe] at h1
    | cons b bs =>
      by_cases hab : a.toNat < b.toNat
      · have hba : ¬ b.toNat < a.toNat := by omega
        simp [charListLe, hab, hba] at h2
      · by_cases hba : b.toNat < a.toNat
        · simp [charListLe, hab, hba] at h1
        · have hn : a.toNat = b.toNat := by omega
          have hc : a = b := Char.ext (UInt32.ext hn)
          subst hc
          simp only [charListLe, Nat.lt_irrefl, if_false] at h1 h2
          rw [ih bs h1 h2]

theorem strLe_total (a b : String) : strLe a b = true ∨ strLe b a = true :=
  charListLe_total a.data b.data

theorem strLe_antisymm (a b : String) (h1 : strLe a b = true)
    (h2 : strLe b a = true) : a = b := by
  have h := charListLe_antisymm a.data b.data h1 h2
  cases a; cases b; exact congrArg String.mk h

theorem runOps_nil (s : AppState) : runOps s [] = s := rfl

theorem runOps_cons (s : AppState) (op : Op) (ops : List Op) :
    runOps s (op :: ops) = runOps (applyOp s op) ops := rfl

theorem packetCallback_none (s : AppState) (p : Packet) (h : p.ip = none) :
    packetCallback s p = s := by
  simp [packetCallback, h]

theorem addPacketToTree_packets (s : AppState) (p : Packet) :
    (addPacketToTree s p).packets = s.packets := by
  cases h : p.ip <;> simp [addPacketToTree, h]

theorem addPacketToTree_conversations (s : AppState) (p : Packet) :
    (addPacketToTree s p).conversations = s.conversations := by
  cases h : p.ip <;> simp [addPacketToTree, h]

theorem addPacketToTree_selected (s : AppState) (p : Packet) :
    (addPacketToTree s p).selected = s.selected := by
  cases h : p.ip <;> simp [addPacketToTree, h]

theorem addPacketToTree_graph (s : AppState) (p : Packet) :
    (addPacketToTree s p).graph = s.graph := by
  cases h : p.ip <;> simp [addPacketToTree, h]

theorem packetCallback_conversations (s : AppState) (p : Packet) (ip : IPLayer)
    (h : p.ip = some ip) :
    (packetCallback s p).conversations
      = recordPacket (conversationKey ip.src ip.dst) p s.conversations := by
  simp only [packetCallback, processPacket, h]
  split <;> simp [addPacketToTree_conversations]

theorem foldl_addPacketToTree_conversations (ps : List Packet) :
    ∀ s : AppState, (ps.foldl addPacketToTree s).conversations = s.conversations := by
  induction ps with
  | nil => intro s; rfl
  | cons p ps ih =>
    intro s
    simp [List.foldl_cons, ih, addPacketToTree_conversations]

theorem selectConversation_conversations (s : AppState) (k : Addr × Addr) :
    (selectConversation s k).conversations = ensureConv k s.conversations := by
  simp [selectConversation, foldl_addPacketToTree_conversations]

/-! ## C3: FlowKey canonicalization -/

/-- C3: for all address strings A and B, the FlowKey computed for a packet
from A to B equals the FlowKey computed for a packet from B to A: the key
is the pair sorted lexicographically. -/
theorem conversationKey_symm (a b : Addr) :
    conversationKey a b = conversationKey b a := by
  unfold conversationKey
  by_cases h1 : strLe a b = true
  · by_cases h2 : strLe b a = true
    · have hab : a = b := strLe_antisymm a b h1 h2
      subst hab; rfl
    · simp [h1, h2]
  · have h2 : strLe b a = true := by
      rcases strLe_total a b with h | h
      · exact absurd h h1
      · exact h
    simp [h1, h2]

/-! ## C7: non-IP packets are rejected without any state change -/

/-- C7: ingesting a packet that lacks an IP layer changes no observable
state — the conversation store, the global packet log, the communication
graph and the displayed rows are all unchanged, and no error escapes the
ingestion entry point. -/
theorem nonIP_packet_noop (s : AppState) (p : Packet) (h : p.ip = none) :
    packetCallback s p = s :=
  packetCallback_none s p h

/-- Witness for C7 at the concrete non-IP sample packet. -/
theorem nonIP_packet_noop_witness :
    pktNoIP.ip = none ∧ packetCallback initState pktNoIP = initState :=
  ⟨rfl, nonIP_packet_noop initState pktNoIP rfl⟩

/-! ## C4: the per-conversation count equals the packet-list length -/

theorem recordPacket_count_inv (k : Addr × Addr) (p : Packet) :
    ∀ convs : ConvStore, (∀ e ∈ convs, e.2.count = e.2.packets.length) →
      ∀ e ∈ recordPacket k p convs, e.2.count = e.2.packets.length := by
  intro convs
  induction convs with
  | nil =>
    intro _ e he
    simp [recordPacket] at he
    subst he; rfl
  | cons hd tl ih =>
    intro h e he
    obtain ⟨k', st⟩ := hd
    simp only [recordPacket] at he
    split at he
    · rcases List.mem_cons.mp he with he | he
      · subst he
        have hh := h (k', st) (List.mem_cons_self _ _)
        simp only at hh ⊢
        simp [hh]
      · exact h e (List.mem_cons_of_mem _ he)
    · rcases List.mem_cons.mp he with he | he
      · subst he
        exact h (k', st) (List.mem_cons_self _ _)
      · exact ih (fun e' he' => h e' (List.mem_cons_of_mem _ he')) e he

theorem ensureConv_count_inv (k : Addr × Addr) (convs : ConvStore)
    (h : ∀ e ∈ convs, e.2.count = e.2.packets.length) :
    ∀ e ∈ ensureConv k convs, e.2.count = e.2.packets.length := by
  intro e he
  unfold ensureConv at he
  split at he
  · exact h e he
  · rcases List.mem_append.mp he with he | he
    · exact h e he
    · simp at he; subst he; rfl

theorem applyOp_count_inv (s : AppState) (op : Op)
    (h : ∀ e ∈ s.conversations, e.2.count = e.2.packets.length) :
    ∀ e ∈ (applyOp s op).conversations, e.2.count = e.2.packets.length := by
  cases op with
  | ingest p =>
    cases hp : p.ip with
    | none =>
      simpa [applyOp, packetCallback, hp] using h
    | some ip =>
      simp only [applyOp, packetCallback_conversations s p ip hp]
      exact recordPacket_count_inv _ _ _ h
  | select k =>
    simp only [applyOp, selectConversation_conversations]
    exact ensureConv_count_inv _ _ h
  | clear =>
    intro e he
    simp [applyOp, clearData, initState] at he
  | startCapture =>
    simpa [applyOp, startSniffing] using h

/-- C4: for every conversation entry in the store, after any sequence of
operations from the initial state, the stored count equals the length of
that conversation's packet list. -/
theorem conversation_count_eq_length (ops : List Op) :
    ∀ e ∈ (runOps initState ops).conversations, e.2.count = e.2.packets.length := by
  have main : ∀ (l : List Op) (s : AppState),
      (∀ e ∈ s.conversations, e.2.count = e.2.packets.length) →
      ∀ e ∈ (runOps s l).conversations, e.2.count = e.2.packets.length := by
    intro l
    induction l with
    | nil => intro s h; simpa [runOps_nil] using h
    | cons op rest ih =>
      intro s h
      rw [runOps_cons]
      exact ih _ (applyOp_count_inv s op h)
  exact main ops initState (by simp [initState])

/-- Witness for C4: the invariant evaluated on a concrete one-packet run. -/
theorem conversation_count_eq_length_witness :
    ((("a", "b"), (⟨1, [pktAB]⟩ : ConvState))
        ∈ (runOps initState [Op.ingest pktAB]).conversations) ∧
    (⟨1, [pktAB]⟩ : ConvState).count = (⟨1, [pktAB]⟩ : ConvState).packets.length :=
  ⟨by decide, conversation_count_eq_length [Op.ingest pktAB]
      (("a", "b"), (⟨1, [pktAB]⟩ : ConvState)) (by decide)⟩

/-! ## C1: store keys versus graph edges -/

theorem recordPacket_keys (k : Addr × Addr) (p : Packet) :
    ∀ convs : ConvStore, (recordPacket k p convs).map Prod.fst =
      (if k ∈ convs.map Prod.fst then convs.map Prod.fst
       else convs.map Prod.fst ++ [k]) := by
  intro convs
  induction convs with
  | nil => simp [recordPacket]
  | cons hd tl ih =>
    obtain ⟨k', st⟩ := hd
    simp only [recordPacket]
    by_cases hk : k' = k
    · subst hk; simp
    · have hkk : ¬ k = k' := fun h => hk h.symm
      simp only [if_neg hk, List.map_cons, ih]
      by_cases hm : k ∈ tl.map Prod.fst <;> simp [hm, hkk]

theorem packetCallback_graph (s : AppState) (p : Packet) (ip : IPLayer)
    (h : p.ip = some ip) :
    (packetCallback s p).graph = addEdge ip.src ip.dst s.graph := by
  simp only [packetCallback, processPacket, h]
  split <;> simp [addPacketToTree_graph]

theorem applyOp_keys_graph (s : AppState) (op : Op) (hop : isDataOp op = true)
    (h : convKeys s = s.graph) :
    convKeys (applyOp s op) = (applyOp s op).graph := by
  cases op with
  | ingest p =>
    cases hp : p.ip with
    | none =>
      simpa [applyOp, packetCallback, hp, convKeys] using h
    | some ip =>
      simp only [applyOp, convKeys, packetCallback_conversations s p ip hp,
        packetCallback_graph s p ip hp]
      rw [recordPacket_keys]
      unfold addEdge
      rw [← h]
      rfl
  | select k => simp [isDataOp] at hop
  | clear => simp [applyOp, clearData, initState, convKeys]
  | startCapture => simp [isDataOp] at hop

/-- C1 counterexample: the claim quantifies over sequences that include
starting a capture session, but `start_sniffing` clears only the graph
(`self.graph.clear()`), not the conversation store — after ingesting one
packet and starting a session, FlowKey ("a","b") is in the store while its
edge is gone from the graph. -/
theorem graph_store_mismatch_after_start :
    ("a", "b") ∈ convKeys (runOps initState [Op.ingest pktAB, Op.startCapture]) ∧
    ("a", "b") ∉ (runOps initState [Op.ingest pktAB, Op.startCapture]).graph := by
  decide

/-- C1 amended: after any sequence of packet ingestions and clears (no
session start in between), the set of FlowKeys in the conversation store
equals, as unordered address pairs, the set of edges in the communication
graph. -/
theorem graph_store_consistency (ops : List Op)
    (h : ∀ op ∈ ops, isDataOp op = true) :
    ∀ k, k ∈ convKeys (runOps initState ops) ↔
      k ∈ (runOps initState ops).graph := by
  have main : ∀ (l : List Op) (s : AppState), (∀ op ∈ l, isDataOp op = true) →
      convKeys s = s.graph → convKeys (runOps s l) = (runOps s l).graph := by
    intro l
    induction l with
    | nil => intro s _ hinv; simpa [runOps_nil] using hinv
    | cons op rest ih =>
      intro s hl hinv
      rw [runOps_cons]
      exact ih _ (fun o ho => hl o (List.mem_cons_of_mem _ ho))
        (applyOp_keys_graph s op (hl op (List.mem_cons_self _ _)) hinv)
  intro k
  rw [main ops initState h rfl]

/-- Witness for the amended C1 on a concrete ingest/clear/ingest trace. -/
theorem graph_store_consistency_witness :
    (∀ op ∈ [Op.ingest pktAB, Op.clear, Op.ingest pktAC], isDataOp op = true) ∧
    (∀ k, k ∈ convKeys (runOps initState [Op.ingest pktAB, Op.clear, Op.ingest pktAC]) ↔
      k ∈ (runOps initState [Op.ingest pktAB, Op.clear, Op.ingest pktAC]).graph) :=
  ⟨by decide, graph_store_consistency [Op.ingest pktAB, Op.clear, Op.ingest pktAC]
    (by decide)⟩

/-! ## C2: storage is unconditional, display is filtered by the selection -/

theorem lookupConv_recordPacket (k : Addr × Addr) (p : Packet) :
    ∀ convs : ConvStore, lookupConv k (recordPacket k p convs)
      = ⟨(lookupConv k convs).count + 1, (lookupConv k convs).packets ++ [p]⟩ := by
  intro convs
  induction convs with
  | nil => simp [recordPacket, lookupConv]
  | cons hd tl ih =>
    obtain ⟨k', st⟩ := hd
    simp only [recordPacket]
    by_cases hk : k' = k
    · simp [lookupConv, hk]
    · simp [lookupConv, hk, ih]

theorem packetCallback_packets (s : AppState) (p : Packet) (ip : IPLayer)
    (h : p.ip = some ip) :
    (packetCallback s p).packets = s.packets ++ [p] := by
  simp only [packetCallback, processPacket, h]
  split <;> simp [addPacketToTree_packets]

theorem packetCallback_selected (s : AppState) (p : Packet) :
    (packetCallback s p).selected = s.selected := by
  cases h : p.ip with
  | none => simp [packetCallback, h]
  | some ip =>
    simp only [packetCallback, processPacket, h]
    split <;> simp [addPacketToTree_selected]

theorem packetCallback_tree (s : AppState) (p : Packet) (ip : IPLayer)
    (h : p.ip = some ip) :
    (packetCallback s p).tree
      = (if s.selected = none ∨ s.selected = some (conversationKey ip.src ip.dst)
         then s.tree ++ [⟨s.packets.length + 1, p.time, ip.src, ip.dst,
                          protoName ip.proto, p.pktLen, p.summary⟩]
         else s.tree) := by
  simp only [packetCallback, processPacket, h]
  by_cases hc : s.selected = none ∨ s.selected = some (conversationKey ip.src ip.dst)
  · simp [hc, addPacketToTree, h]
  · simp [hc]

/-- C2: every ingested IP packet is appended to the global packet log and
to its conversation's packet list (with the count incremented) regardless
of the current selection; it is surfaced to the displayed view iff no
conversation is selected or its FlowKey equals the selected one. -/
theorem ingest_effect (s : AppState) (p : Packet) (ip : IPLayer)
    (h : p.ip = some ip) :
    (packetCallback s p).packets = s.packets ++ [p] ∧
    lookupConv (conversationKey ip.src ip.dst) (packetCallback s p).conversations
      = ⟨(lookupConv (conversationKey ip.src ip.dst) s.conversations).count + 1,
         (lookupConv (conversationKey ip.src ip.dst) s.conversations).packets ++ [p]⟩ ∧
    (packetCallback s p).tree
      = (if s.selected = none ∨ s.selected = some (conversationKey ip.src ip.dst)
         then s.tree ++ [⟨s.packets.length + 1, p.time, ip.src, ip.dst,
                          protoName ip.proto, p.pktLen, p.summary⟩]
         else s.tree) := by
  refine ⟨packetCallback_packets s p ip h, ?_, packetCallback_tree s p ip h⟩
  rw [packetCallback_conversations s p ip h, lookupConv_recordPacket]

/-- Witness for C2 at the initial state and the concrete a↔b packet. -/
theorem ingest_effect_witness :
    pktAB.ip = some ⟨"a", "b", 6⟩ ∧
    ((packetCallback initState pktAB).packets = initState.packets ++ [pktAB] ∧
     lookupConv (conversationKey "a" "b") (packetCallback initState pktAB).conversations
       = ⟨(lookupConv (conversationKey "a" "b") initState.conversations).count + 1,
          (lookupConv (conversationKey "a" "b") initState.conversations).packets ++ [pktAB]⟩ ∧
     (packetCallback initState pktAB).tree
       = (if initState.selected = none ∨ initState.selected = some (conversationKey "a" "b")
          then initState.tree ++ [⟨initState.packets.length + 1, pktAB.time, "a", "b",
                                   protoName 6, pktAB.pktLen, pktAB.summary⟩]
          else initState.tree)) :=
  ⟨rfl, ingest_effect initState pktAB ⟨"a", "b", 6⟩ rfl⟩

/-! ## C5: sequence numbers are dense after a clear -/

theorem ingest_run_display (ps : List Packet) :
    ∀ s : AppState, s.selected = none →
      s.tree.map Row.no = List.range' 1 s.packets.length →
      (runOps s (ps.map Op.ingest)).selected = none ∧
      (runOps s (ps.map Op.ingest)).packets.length
        = s.packets.length + ps.countP (fun p => p.ip.isSome) ∧
      (runOps s (ps.map Op.ingest)).tree.map Row.no
        = List.range' 1 ((runOps s (ps.map Op.ingest)).packets.length) := by
  induction ps with
  | nil =>
    intro s h1 h2
    exact ⟨h1, rfl, h2⟩
  | cons p ps ih =>
    intro s h1 h2
    simp only [List.map_cons, runOps_cons, List.countP_cons]
    cases hp : p.ip with
    | none =>
      have hid : applyOp s (Op.ingest p) = s := packetCallback_none s p hp
      rw [hid]
      have := ih s h1 h2
      simpa [hp] using this
    | some ip =>
      have hpk : (packetCallback s p).packets = s.packets ++ [p] :=
        packetCallback_packets s p ip hp
      have hsel : (packetCallback s p).selected = none := by
        rw [packetCallback_selected]; exact h1
      have htree : (packetCallback s p).tree.map Row.no
          = List.range' 1 (packetCallback s p).packets.length := by
        rw [packetCallback_tree s p ip hp, hpk]
        simp only [h1, true_or, if_pos]
        rw [List.map_append, h2]
        simp [List.range'_concat, Nat.add_comm]
      have hlen : (packetCallback s p).packets.length = s.packets.length + 1 := by
        rw [hpk]; simp
      have := ih (packetCallback s p) hsel htree
      simp only [applyOp]
      refine ⟨this.1, ?_, this.2.2⟩
      rw [this.2.1, hlen]
      simp [hp]
      omega

/-- C5: after a clear followed by any sequence of ingest operations with N
accepted (IP) packets, the displayed sequence numbers are exactly
1, …, N in ingestion order — strictly increasing, dense, no repeats. -/
theorem seq_numbers_dense (s : AppState) (ps : List Packet) :
    (runOps (clearData s) (ps.map Op.ingest)).tree.map Row.no
      = List.range' 1 (ps.countP (fun p => p.ip.isSome)) := by
  have h := ingest_run_display ps (clearData s) rfl rfl
  rw [h.2.2, h.2.1]
  simp [clearData, initState]

/-! ## C6: sequence numbers restart (and are reused) after a clear -/

/-- C6 counterexample: the first packet is displayed with sequence number
1; after a clear, the next ingested packet is displayed with sequence
number 1 again, so numbers assigned before a clear are reused. -/
theorem seq_number_reused_after_clear :
    (runOps initState [Op.ingest pktAB]).tree.map Row.no = [1] ∧
    (runOps initState [Op.ingest pktAB, Op.clear, Op.ingest pktCD]).tree.map Row.no
      = [1] := by
  decide

/-- C6 amended: sequence numbering restarts at 1 after a clear — the
numbering baseline is `len(self.packets)`, which the clear resets, so the
first accepted packet after any clear is displayed with number 1. -/
theorem seq_number_restarts_after_clear (s : AppState) (p : Packet) (ip : IPLayer)
    (h : p.ip = some ip) :
    (packetCallback (clearData s) p).tree.map Row.no = [1] := by
  rw [packetCallback_tree (clearData s) p ip h]
  simp [clearData, initState]

/-- Witness for the amended C6 at a concrete packet. -/
theorem seq_number_restarts_witness :
    pktAB.ip = some ⟨"a", "b", 6⟩ ∧
    (packetCallback (clearData initState) pktAB).tree.map Row.no = [1] :=
  ⟨rfl, seq_number_restarts_after_clear initState pktAB ⟨"a", "b", 6⟩ rfl⟩

/-! ## C10: re-displayed rows all carry the current global packet total -/

theorem foldl_addPacketToTree_rows (ps : List Packet) :
    ∀ s : AppState, (ps.foldl addPacketToTree s).packets = s.packets ∧
      ∀ r ∈ (ps.foldl addPacketToTree s).tree, r ∈ s.tree ∨ r.no = s.packets.length := by
  induction ps with
  | nil => intro s; exact ⟨rfl, fun r hr => Or.inl hr⟩
  | cons p ps ih =>
    intro s
    rw [List.foldl_cons]
    obtain ⟨ih1, ih2⟩ := ih (addPacketToTree s p)
    refine ⟨by rw [ih1, addPacketToTree_packets], ?_⟩
    intro r hr
    rcases ih2 r hr with hr' | hr'
    · cases hps : p.ip with
      | none => left; simpa [addPacketToTree, hps] using hr'
      | some ip =>
        simp only [addPacketToTree, hps] at hr'
        rcases List.mem_append.mp hr' with hm | hm
        · left; exact hm
        · right; simp at hm; subst hm; rfl
    · right; rw [hr', addPacketToTree_packets]

/-- C10: after selecting a conversation, every re-displayed row — and
hence every row exported by the CSV download of the filtered view — is
numbered `len(self.packets)`, the current global total of stored packets,
rather than the packet's original ingestion sequence number; all rows of
the filtered view therefore carry the same number. -/
theorem select_redisplay_rows_numbered_total (s : AppState) (k : Addr × Addr) :
    ∀ r ∈ downloadCsvRows (selectConversation s k), r.no = s.packets.length := by
  intro r hr
  simp only [downloadCsvRows, selectConversation] at hr
  obtain ⟨_, h2⟩ := foldl_addPacketToTree_rows
    (lookupConv k (ensureConv k s.conversations)).packets
    { s with selected := some k, conversations := ensureConv k s.conversations,
             tree := [] }
  rcases h2 r hr with hm | hm
  · simp at hm
  · simpa using hm

/-- Witness for C10: two stored a↔b packets re-displayed after selection
both carry row number 2. -/
theorem select_redisplay_witness :
    ((⟨2, 0, "a", "b", "TCP", 60, "ab"⟩ : Row)
        ∈ downloadCsvRows
            (selectConversation (runOps initState [Op.ingest pktAB, Op.ingest pktAB])
              ("a", "b"))) ∧
    (⟨2, 0, "a", "b", "TCP", 60, "ab"⟩ : Row).no
      = (runOps initState [Op.ingest pktAB, Op.ingest pktAB]).packets.length :=
  ⟨by decide, select_redisplay_rows_numbered_total
      (runOps initState [Op.ingest pktAB, Op.ingest pktAB]) ("a", "b")
      (⟨2, 0, "a", "b", "TCP", 60, "ab"⟩ : Row) (by decide)⟩

/-! ## C8: the conversation list is a stable descending sort by count -/

theorem insertByCountDesc_perm (x : (Addr × Addr) × ConvState) :
    ∀ l, List.Perm (insertByCountDesc x l) (x :: l) := by
  intro l
  induction l with
  | nil => simp [insertByCountDesc]
  | cons y ys ih =>
    simp only [insertByCountDesc]
    split
    · exact (ih.cons y).trans (List.Perm.swap x y ys)
    · exact List.Perm.refl _

theorem insertByCountDesc_pairwise (x : (Addr × Addr) × ConvState) :
    ∀ l, l.Pairwise (fun a b => b.2.count ≤ a.2.count) →
      (insertByCountDesc x l).Pairwise (fun a b => b.2.count ≤ a.2.count) := by
  intro l
  induction l with
  | nil => intro _; simp [insertByCountDesc]
  | cons y ys ih =>
    intro h
    rcases List.pairwise_cons.mp h with ⟨hy, hys⟩
    simp only [insertByCountDesc]
    split
    · rename_i hlt
      refine List.pairwise_cons.mpr ⟨?_, ih hys⟩
      intro z hz
      rcases List.mem_cons.mp ((insertByCountDesc_perm x ys).mem_iff.mp hz) with hz' | hz'
      · subst hz'; exact Nat.le_of_lt hlt
      · exact hy z hz'
    · rename_i hlt
      refine List.pairwise_cons.mpr ⟨?_, h⟩
      intro z hz
      rcases List.mem_cons.mp hz with hz' | hz'
      · subst hz'; exact Nat.le_of_not_lt hlt
      · exact le_trans (hy z hz') (Nat.le_of_not_lt hlt)

theorem sortedConvs_perm (l : ConvStore) : List.Perm (sortedConvs l) l := by
  induction l with
  | nil => exact List.Perm.refl _
  | cons a l ih =>
    simp only [sortedConvs, List.foldr_cons] at *
    exact (insertByCountDesc_perm a _).trans (ih.cons a)

theorem sortedConvs_pairwise (l : ConvStore) :
    (sortedConvs l).Pairwise (fun a b => b.2.count ≤ a.2.count) := by
  induction l with
  | nil => simp [sortedConvs]
  | cons a l ih =>
    simpa only [sortedConvs, List.foldr_cons] using
      insertByCountDesc_pairwise a _ ih

theorem filter_insertByCountDesc (c : Nat) (x : (Addr × Addr) × ConvState) :
    ∀ l, (insertByCountDesc x l).filter (fun e => e.2.count == c)
      = (if x.2.count == c then x :: l.filter (fun e => e.2.count == c)
         else l.filter (fun e => e.2.count == c)) := by
  intro l
  induction l with
  | nil =>
    by_cases hxc : x.2.count = c <;>
      simp [insertByCountDesc, List.filter_cons, hxc]
  | cons y ys ih =>
    simp only [insertByCountDesc]
    split
    · rename_i hlt
      by_cases hxc : x.2.count == c
      · have hyc : (y.2.count == c) = false := by
          have hx : x.2.count = c := by simpa using hxc
          have : y.2.count ≠ c := by omega
          simpa using this
        simp [List.filter_cons, hyc, ih, hxc]
      · have hxc' : (x.2.count == c) = false := by simpa using hxc
        simp [List.filter_cons, ih, hxc']
    · simp [List.filter_cons]

theorem filter_sortedConvs (c : Nat) (l : ConvStore) :
    (sortedConvs l).filter (fun e => e.2.count == c)
      = l.filter (fun e => e.2.count == c) := by
  induction l with
  | nil => rfl
  | cons a l ih =>
    simp only [sortedConvs, List.foldr_cons] at *
    rw [filter_insertByCountDesc, List.filter_cons]
    by_cases h : a.2.count == c <;> simp [h, ih]

/-- C8: the conversation list produced for display is a permutation of
the stored conversations sorted in descending order of packet count, and
for every count value the conversations with that count keep exactly their
order in the store (which is first-seen order, since `recordPacket`
appends new keys at the end) — the sort is stable. -/
theorem conversations_list_sorted_stable (s : AppState) :
    List.Perm (updateConversationsList s) s.conversations ∧
    (updateConversationsList s).Pairwise (fun a b => b.2.count ≤ a.2.count) ∧
    ∀ c : Nat, (updateConversationsList s).filter (fun e => e.2.count == c)
      = s.conversations.filter (fun e => e.2.count == c) :=
  ⟨sortedConvs_perm _, sortedConvs_pairwise _, fun c => filter_sortedConvs c _⟩

/-! ## C9: the private-address short circuit misses part of 172.16.0.0/12 -/

/-- C9: the address "172.17.0.1" lies in 172.16.0.0/12 (per the spec-side
range definition), yet `_fetch_ip_info`'s prefix test
`ip.startswith(('10.', '192.168.', '172.16.', '127.0.0.1'))` does not
match it, so the code performs a network lookup instead of returning the
local private-address result the claim requires. -/
theorem private_range_misses_172_slash_12 :
    specPrivateRange "172.17.0.1" = true ∧
    fetchIpInfo "172.17.0.1" = IpLookup.networkCall "172.17.0.1" := by
  decide
